import Mathlib

set_option maxRecDepth 100000

/-!
# SEGB container format: verification of the encoder and its specification

This development embeds the SEGB fixture generator (`generate_test_files.py`)
in Lean 4: little-endian packing, CRC32, the version 1 and version 2
container encoders, and decoders modelled from the specification (the
repository ships only the writer).  Bytes are modelled as `Nat` values,
byte strings as `List Nat`; a Python `bytearray` slice assignment
`b[i:j] = v` becomes `setSlice`.  Fallible packing (`struct.pack` raising
on out-of-range values) becomes `Option`.  IEEE-754 doubles are abstracted:
a record's instant is its exact offset from the 2001-01-01 epoch in
microseconds (`Int`), `get_timestamp` produces the exact rational number of
seconds, and an arbitrary function `fbits : ℚ → Nat` stands for the 64-bit
IEEE-754 encoding of that value; every structural theorem holds for every
such `fbits`.
-/

namespace SEGB

/-- Little-endian encoding of `n` into `k` bytes (low byte first), as
`struct.pack` produces for `<I` (k = 4) and for the bit pattern of `<d`
(k = 8). -/
def toLE : Nat → Nat → List Nat
  | 0, _ => []
  | k + 1, n => n % 256 :: toLE k (n / 256)

/-- Little-endian decoding of a byte list, as `struct.unpack` does. -/
def fromLE : List Nat → Nat
  | [] => 0
  | b :: bs => b + 256 * fromLE bs

/-- `struct.pack('<I', n)`: 4 little-endian bytes, failing (raising
`struct.error`) when `n` does not fit in 32 bits. -/
def packU32 (n : Nat) : Option (List Nat) :=
  if n < 2 ^ 32 then some (toLE 4 n) else none

/-- Python `bytearray` slice assignment `b[i:i+len(v)] = v`. -/
def setSlice (l : List Nat) (i : Nat) (v : List Nat) : List Nat :=
  l.take i ++ v ++ l.drop (i + v.length)

/-- `l[i:i+n]`: the `n` bytes of `l` starting at offset `i`. -/
def slice (l : List Nat) (i n : Nat) : List Nat :=
  (l.drop i).take n

/-- Padding needed to round `sz` up to a multiple of `a`:
`(a - (sz % a)) % a`, exactly as written in the source. -/
def padTo (a sz : Nat) : Nat :=
  (a - sz % a) % a

/-- One bit-step of the reflected CRC32 with polynomial `0xEDB88320`. -/
def crc32Step (c : Nat) : Nat :=
  if c % 2 = 1 then (c / 2) ^^^ 0xEDB88320 else c / 2

/-- Fold one input byte into the CRC state (xor into the low byte, then
eight bit-steps). -/
def crc32Byte (c b : Nat) : Nat :=
  crc32Step (crc32Step (crc32Step (crc32Step
    (crc32Step (crc32Step (crc32Step (crc32Step (c ^^^ b % 256))))))))

/-- `binascii.crc32(data) & 0xffffffff`: standard CRC-32 (init and xor-out
`0xFFFFFFFF`, reflected polynomial `0xEDB88320`). -/
def crc32 (data : List Nat) : Nat :=
  (data.foldl crc32Byte 0xFFFFFFFF) ^^^ 0xFFFFFFFF

/-- The 4-byte file magic `b'SEGB'`. -/
def magic : List Nat := [0x53, 0x45, 0x47, 0x42]

/-- One logical record handed to the encoder: its payload bytes and its
instant, given exactly as signed microseconds from the base date
2001-01-01T00:00:00 UTC (the content of the Python `datetime` difference
`dt - BASE_DATE`). -/
structure Record where
  data : List Nat
  dateMicros : Int

/-- `get_timestamp(dt) = (dt - BASE_DATE).total_seconds()`: the exact
signed fractional number of seconds from the 2001-01-01 epoch to the
instant, as a rational (the IEEE-754 rounding of `total_seconds` lives in
the abstract bit-encoding `fbits`). -/
def get_timestamp (dateMicros : Int) : ℚ :=
  (dateMicros : ℚ) / 1000000

/-- `struct.pack('<d', t)` for a timestamp value `t`, with `fbits t` the
64-bit IEEE-754 pattern of the double: 8 little-endian bytes. -/
def packF64 (fbits : ℚ → Nat) (t : ℚ) : List Nat :=
  toLE 8 (fbits t % 2 ^ 64)

/-! ## Version 1 encoder (from the source) -/

/-- The 32-byte v1 entry header, built exactly as the source builds it:
a zero `bytearray(0x20)` with length, state, the two timestamps, the CRC32
checksum, and the reserved field assigned into their slices.  `none` when
`struct.pack('<I', data_length)` would raise. -/
def entryHeaderV1 (fbits : ℚ → Nat) (r : Record) : Option (List Nat) :=
  (packU32 r.data.length).bind fun lenB =>
  (packU32 (crc32 r.data)).bind fun crcB =>
  let ts := packF64 fbits (get_timestamp r.dateMicros)
  some (setSlice (setSlice (setSlice (setSlice (setSlice (setSlice
    (List.replicate 0x20 0)
    0x00 lenB)
    0x04 (toLE 4 1))
    0x08 ts)
    0x10 ts)
    0x18 crcB)
    0x1C (List.replicate 4 0))

/-- One padded v1 entry: header, raw data, zero padding to the next
multiple of 8 bytes. -/
def entryV1 (fbits : ℚ → Nat) (r : Record) : Option (List Nat) :=
  (entryHeaderV1 fbits r).bind fun hdr =>
  let e := hdr ++ r.data
  some (e ++ List.replicate (padTo 8 e.length) 0)

/-- Encode every record in order, failing if any single one fails. -/
def encodeEntries (f : Record → Option (List Nat)) : List Record → Option (List (List Nat))
  | [] => some []
  | r :: rs => (f r).bind fun e => (encodeEntries f rs).bind fun es => some (e :: es)

/-- The 56-byte v1 header before the end offset is patched in: all zero
except the magic at offset 0x34. -/
def headerV1base : List Nat :=
  setSlice (List.replicate 0x38 0) 0x34 magic

/-- Version 1 container: 56-byte header (magic at 0x34, `end_offset`
patched into bytes [0x00:0x04) after all entries are built) followed by
the concatenated padded entries. -/
def encodeV1 (fbits : ℚ → Nat) (rs : List Record) : Option (List Nat) :=
  (encodeEntries (entryV1 fbits) rs).bind fun es =>
  (packU32 (0x38 + (es.map List.length).sum)).bind fun offB =>
  some (setSlice headerV1base 0x00 offB ++ es.flatten)

/-! ## Version 2 encoder (from the source) -/

/-- One padded v2 entry: CRC32 checksum, 4 reserved zero bytes, raw data,
zero padding to the next multiple of 4 bytes.  `none` when
`struct.pack('<I', crc32)` would raise (it never does; see
`crc32_lt_two_pow_32`). -/
def entryV2 (r : Record) : Option (List Nat) :=
  (packU32 (crc32 r.data)).bind fun crcB =>
  let e := crcB ++ List.replicate 4 0 ++ r.data
  some (e ++ List.replicate (padTo 4 e.length) 0)

/-- The sizes of the padded v2 entries of `rs`, in order. -/
def entrySizesV2 (rs : List Record) : List Nat :=
  rs.map fun r => 8 + r.data.length + padTo 4 (8 + r.data.length)

/-- The trailer offset recorded for entry `i`: the running
`current_offset_v2`, i.e. the sum of the padded sizes of the preceding
entries (relative to the end of the header). -/
def offsetV2 (rs : List Record) (i : Nat) : Nat :=
  ((entrySizesV2 rs).take i).sum

/-- The 16-byte v2 trailer record for entry `i`: offset, state (Written),
timestamp, each packed little-endian. -/
def trailerRecV2 (fbits : ℚ → Nat) (rs : List Record) (i : Nat) (r : Record) : Option (List Nat) :=
  (packU32 (offsetV2 rs i)).bind fun offB =>
  some (offB ++ toLE 4 1 ++ packF64 fbits (get_timestamp r.dateMicros))

/-- Build the v2 trailer records for `rs.drop i`, entry indices from `i`. -/
def trailerV2from (fbits : ℚ → Nat) (rs : List Record) : Nat → List Record → Option (List (List Nat))
  | _, [] => some []
  | i, r :: tl =>
    (trailerRecV2 fbits rs i r).bind fun t =>
    (trailerV2from fbits rs (i + 1) tl).bind fun ts => some (t :: ts)

/-- The 32-byte v2 header: magic, entry count, creation timestamp (from
the clock instant `now`, in microseconds from the epoch), 16 reserved zero
bytes. -/
def headerV2 (fbits : ℚ → Nat) (now : Int) (rs : List Record) : Option (List Nat) :=
  (packU32 rs.length).bind fun cntB =>
  some (setSlice (setSlice (setSlice (setSlice
    (List.replicate 0x20 0)
    0x00 magic)
    0x04 cntB)
    0x08 (packF64 fbits (get_timestamp now)))
    0x10 (List.replicate 16 0))

/-- Version 2 container: 32-byte header, concatenated padded entries, then
the trailer of one 16-byte record per entry. -/
def encodeV2 (fbits : ℚ → Nat) (now : Int) (rs : List Record) : Option (List Nat) :=
  (headerV2 fbits now rs).bind fun hdr =>
  (encodeEntries entryV2 rs).bind fun es =>
  (trailerV2from fbits rs 0 rs).bind fun ts =>
  some (hdr ++ es.flatten ++ ts.flatten)

/-- The whole generator script run at clock instant `now`: the pair of the
version 1 and version 2 container bytes. -/
def generateFiles (fbits : ℚ → Nat) (now : Int) (rs : List Record) :
    Option (List Nat × List Nat) :=
  (encodeV1 fbits rs).bind fun f1 =>
  (encodeV2 fbits now rs).bind fun f2 =>
  some (f1, f2)

/-- The sizes of the padded v1 entries of `rs`, in order: 32-byte entry
header, data, padding to a multiple of 8. -/
def entrySizesV1 (rs : List Record) : List Nat :=
  rs.map fun r => 32 + r.data.length + padTo 8 (32 + r.data.length)

/-- The absolute file offset of v1 entry `i`, past the 56-byte header and
the padded sizes of the preceding entries. -/
def offsetV1 (rs : List Record) (i : Nat) : Nat :=
  0x38 + ((entrySizesV1 rs).take i).sum

/-! ## Version 1 decoder

Modelled from the spec: the repository contains only the fixture writer, so
the reader of section 4.2 is embedded from the spec's words.  A checksum
mismatch is per-entry and non-fatal (the record is only flagged), so the
decoder below extracts the data bytes; structural problems (bad magic,
truncation) abort with `none`. -/

/-- Modelled from the spec: the v1 entry loop of section 4.2.  Starting at
`pos`, read a 32-byte entry header, extract `length`, read that many data
bytes, advance past data and padding to the next multiple-of-8 boundary,
and stop when the running offset reaches `end_offset`; `none` when the
remaining bytes cannot hold the promised entry. -/
def decodeV1Entries (bytes : List Nat) (endOff : Nat) (pos : Nat) :
    Option (List (List Nat)) :=
  if h : endOff ≤ pos then some []
  else if bytes.length < pos + 32 then none
  else if bytes.length < pos + 32 + fromLE (slice bytes pos 4) then none
  else
    (decodeV1Entries bytes endOff (pos + 32 + fromLE (slice bytes pos 4)
        + padTo 8 (32 + fromLE (slice bytes pos 4)))).bind
      fun ds => some (slice bytes (pos + 32) (fromLE (slice bytes pos 4)) :: ds)
termination_by endOff - pos
decreasing_by omega

/-- Modelled from the spec: v1 `Decode` (section 4.2).  Requires at least
56 bytes and the magic `SEGB` at offset 0x34, reads `end_offset` from
bytes [0x00:0x04), then walks the entries from offset 0x38. -/
def decodeV1 (bytes : List Nat) : Option (List (List Nat)) :=
  if bytes.length < 0x38 then none
  else if slice bytes 0x34 4 ≠ magic then none
  else decodeV1Entries bytes (fromLE (slice bytes 0 4)) 0x38

/-! ## Version 2 decoder -/

/-- The number of trailing zero bytes of a byte list. -/
def trailingZeros (l : List Nat) : Nat :=
  (l.reverse.takeWhile (fun b => b == 0)).length

/-- Modelled from the spec: remove the v2 entry's trailing zero padding.
Padding is at most 3 bytes (alignment 4), so at most
`min 3 (trailingZeros l)` trailing zero bytes are stripped. -/
def stripPadV2 (l : List Nat) : List Nat :=
  l.take (l.length - min 3 (trailingZeros l))

/-- Modelled from the spec: recover one v2 entry's data from the data
region, given its trailer `offset` and the `stop` offset (the next entry's
offset, or the region length for the last entry): the gap minus the 8
checksum/reserved bytes, minus trailing padding.  An inconsistent trailer
(gap smaller than 8 bytes, or reaching past the region) is a structural
error. -/
def decodeV2Entry (region : List Nat) (off stop : Nat) : Option (List Nat) :=
  if stop < off + 8 then none
  else if region.length < stop then none
  else some (stripPadV2 (slice region (off + 8) (stop - off - 8)))

/-- Modelled from the spec: decode the v2 entries at the given trailer
offsets, in trailer order. -/
def decodeV2Entries (region : List Nat) : List Nat → Option (List (List Nat))
  | [] => some []
  | o :: rest =>
    (decodeV2Entry region o (match rest with | [] => region.length | o2 :: _ => o2)).bind
      fun d => (decodeV2Entries region rest).bind fun ds => some (d :: ds)

/-- The `offset` fields of the `n` 16-byte trailer records. -/
def readTrailerOffsets (trailer : List Nat) (n : Nat) : List Nat :=
  (List.range n).map fun i => fromLE (slice trailer (16 * i) 4)

/-- Modelled from the spec: v2 `Decode` (section 4.3).  Validates magic and
minimum length, reads `entry_count`; the trailer is the final
`entry_count * 16` bytes, the data region everything between header end
and trailer start; each entry is located by its trailer offset and its
length inferred from the gap to the next offset (or to the trailer). -/
def decodeV2 (bytes : List Nat) : Option (List (List Nat)) :=
  if bytes.length < 0x20 then none
  else if slice bytes 0 4 ≠ magic then none
  else if bytes.length < 0x20 + 16 * fromLE (slice bytes 4 4) then none
  else
    decodeV2Entries
      (slice bytes 0x20 (bytes.length - 0x20 - 16 * fromLE (slice bytes 4 4)))
      (readTrailerOffsets (bytes.drop (bytes.length - 16 * fromLE (slice bytes 4 4)))
        (fromLE (slice bytes 4 4)))

/-- The trailer offsets of the entries of `rs`, starting from byte
position `base` of the data region: used to relate the decoder's offsets
to the encoder's running offset. -/
def offsetsFrom (base : Nat) : List Record → List Nat
  | [] => []
  | r :: tl => base :: offsetsFrom (base + (8 + r.data.length + padTo 4 (8 + r.data.length))) tl

/-- A concrete IEEE-754 bit-encoding stub used by the witness instances
(the structural theorems hold for every encoding function). -/
def fb0 : ℚ → Nat := fun _ => 0

/-- Concrete records used by the witness instances. -/
def rs0 : List Record :=
  [⟨[1, 2, 3], 5000000⟩, ⟨[], -250000⟩, ⟨[7], 0⟩]

/-- The flattened byte string of one padded v1 entry (proved equal to
`entryV1` when the data length fits in 32 bits): length, state 1, the two
timestamps, checksum, 4 reserved zero bytes, raw data, padding. -/
def entryBytesV1 (fbits : ℚ → Nat) (r : Record) : List Nat :=
  toLE 4 r.data.length ++ toLE 4 1 ++
  packF64 fbits (get_timestamp r.dateMicros) ++
  packF64 fbits (get_timestamp r.dateMicros) ++
  toLE 4 (crc32 r.data) ++ List.replicate 4 0 ++ r.data ++
  List.replicate (padTo 8 (32 + r.data.length)) 0

/-- The flattened byte string of one padded v2 entry (proved equal to
`entryV2`): checksum, 4 reserved zero bytes, raw data, padding. -/
def entryBytesV2 (r : Record) : List Nat :=
  toLE 4 (crc32 r.data) ++ List.replicate 4 0 ++ r.data ++
  List.replicate (padTo 4 (8 + r.data.length)) 0

/-- The flattened 16 bytes of the v2 trailer record of entry `i` (proved
equal to `trailerRecV2`): offset, state 1, timestamp. -/
def trailerRecBytesV2 (fbits : ℚ → Nat) (rs : List Record) (i : Nat) (r : Record) : List Nat :=
  toLE 4 (offsetV2 rs i) ++ toLE 4 1 ++ packF64 fbits (get_timestamp r.dateMicros)

/-- The flattened v2 trailer records for `tl`, entry indices from `i`
(proved equal to `trailerV2from` when every offset fits in 32 bits). -/
def trailerBytesV2 (fbits : ℚ → Nat) (rs : List Record) : Nat → List Record → List (List Nat)
  | _, [] => []
  | i, r :: tl => trailerRecBytesV2 fbits rs i r :: trailerBytesV2 fbits rs (i + 1) tl

/-! ## Basic facts about the primitives -/

theorem toLE_length (k n : Nat) : (toLE k n).length = k := by
  induction k generalizing n with
  | zero => rfl
  | succ k ih => simp [toLE, ih]

theorem mod_mul_split (n m : Nat) (hm : 0 < m) :
    n % (256 * m) = n % 256 + 256 * (n / 256 % m) := by
  have hx : n / 256 % m < m := Nat.mod_lt _ hm
  have hr : n % 256 < 256 := Nat.mod_lt _ (by norm_num)
  have hlt : n % 256 + 256 * (n / 256 % m) < 256 * m := by omega
  calc n % (256 * m)
      = (n % 256 + 256 * (n / 256)) % (256 * m) := by
        conv_lhs => rw [← Nat.div_add_mod n 256]
        rw [Nat.add_comm]
    _ = ((n % 256) % (256 * m) + (256 * (n / 256)) % (256 * m)) % (256 * m) := by
        rw [← Nat.add_mod]
    _ = (n % 256 + 256 * (n / 256 % m)) % (256 * m) := by
        rw [Nat.mod_eq_of_lt (show n % 256 < 256 * m by omega), Nat.mul_mod_mul_left]
    _ = n % 256 + 256 * (n / 256 % m) := Nat.mod_eq_of_lt hlt

theorem fromLE_toLE_mod (k n : Nat) : fromLE (toLE k n) = n % 256 ^ k := by
  induction k generalizing n with
  | zero => simp [toLE, fromLE, Nat.mod_one]
  | succ k ih =>
    have hpos : 0 < (256 : Nat) ^ k := Nat.pos_pow_of_pos k (by norm_num)
    simp only [toLE, fromLE, ih]
    rw [pow_succ, Nat.mul_comm (256 ^ k) 256, mod_mul_split n (256 ^ k) hpos]

theorem fromLE_toLE (k n : Nat) (h : n < 256 ^ k) : fromLE (toLE k n) = n := by
  rw [fromLE_toLE_mod, Nat.mod_eq_of_lt h]

theorem packF64_length (fbits : ℚ → Nat) (t : ℚ) : (packF64 fbits t).length = 8 := by
  simp [packF64, toLE_length]

theorem packU32_eq (n : Nat) (h : n < 2 ^ 32) : packU32 n = some (toLE 4 n) := by
  unfold packU32
  rw [if_pos h]

/-! ## Slice and flatten helpers -/

theorem slice_append_right (a b : List Nat) (k n : Nat) :
    slice (a ++ b) (a.length + k) n = slice b k n := by
  simp only [slice, List.drop_append_eq_append_drop, Nat.add_sub_cancel_left]
  rw [List.drop_eq_nil_of_le (by omega), List.nil_append]

theorem slice_zero (l : List Nat) (n : Nat) : slice l 0 n = l.take n := by
  simp [slice]

theorem slice_at_start (a b : List Nat) (n : Nat) :
    slice (a ++ b) a.length n = b.take n := by
  have h := slice_append_right a b 0 n
  rw [Nat.add_zero] at h
  rw [h, slice_zero]

theorem slice_append_left (a b : List Nat) (d n : Nat) (h : d + n ≤ a.length) :
    slice (a ++ b) d n = slice a d n := by
  simp only [slice, List.drop_append_eq_append_drop]
  rw [Nat.sub_eq_zero_of_le (by omega), List.drop_zero,
    List.take_append_of_le_length (by simp [List.length_drop]; omega)]

/-! ## The CRC32 state stays a 32-bit value -/

theorem crc32Step_lt (c : Nat) (h : c < 2 ^ 32) : crc32Step c < 2 ^ 32 := by
  unfold crc32Step
  split
  · exact Nat.xor_lt_two_pow (by omega) (by norm_num)
  · omega

theorem crc32Byte_lt (c b : Nat) (h : c < 2 ^ 32) : crc32Byte c b < 2 ^ 32 := by
  have hb : b % 256 < 2 ^ 32 := by
    have := Nat.mod_lt b (show 0 < 256 by norm_num)
    omega
  have h0 : c ^^^ b % 256 < 2 ^ 32 := Nat.xor_lt_two_pow h hb
  unfold crc32Byte
  exact crc32Step_lt _ (crc32Step_lt _ (crc32Step_lt _ (crc32Step_lt _ (crc32Step_lt _
    (crc32Step_lt _ (crc32Step_lt _ (crc32Step_lt _ h0)))))))

theorem crc32_foldl_lt (l : List Nat) (c : Nat) (hc : c < 2 ^ 32) :
    l.foldl crc32Byte c < 2 ^ 32 := by
  induction l generalizing c with
  | nil => simpa using hc
  | cons a tl ih => exact ih _ (crc32Byte_lt _ _ hc)

theorem crc32_lt_two_pow_32 (data : List Nat) : crc32 data < 2 ^ 32 := by
  unfold crc32
  exact Nat.xor_lt_two_pow (crc32_foldl_lt data _ (by norm_num)) (by norm_num)

/-! ## Flattened shapes of the headers and entries -/

theorem entryHeaderV1_eq (fbits : ℚ → Nat) (r : Record) (h : r.data.length < 2 ^ 32) :
    entryHeaderV1 fbits r = some (toLE 4 r.data.length ++ toLE 4 1 ++
      packF64 fbits (get_timestamp r.dateMicros) ++
      packF64 fbits (get_timestamp r.dateMicros) ++
      toLE 4 (crc32 r.data) ++ List.replicate 4 0) := by
  unfold entryHeaderV1
  rw [packU32_eq _ h, packU32_eq _ (crc32_lt_two_pow_32 r.data)]
  rfl

theorem entryV1_eq (fbits : ℚ → Nat) (r : Record) (h : r.data.length < 2 ^ 32) :
    entryV1 fbits r = some (entryBytesV1 fbits r) := by
  unfold entryV1
  rw [entryHeaderV1_eq fbits r h]
  simp only [Option.some_bind]
  have h32 : (toLE 4 r.data.length ++ toLE 4 1 ++
      packF64 fbits (get_timestamp r.dateMicros) ++
      packF64 fbits (get_timestamp r.dateMicros) ++
      toLE 4 (crc32 r.data) ++ List.replicate 4 0 ++ r.data).length
      = 32 + r.data.length := by
    simp [toLE_length, packF64_length]
    omega
  simp only [entryBytesV1, List.append_assoc] at h32 ⊢
  rw [h32]

theorem entryV2_eq (r : Record) : entryV2 r = some (entryBytesV2 r) := by
  unfold entryV2
  rw [packU32_eq _ (crc32_lt_two_pow_32 r.data)]
  simp only [Option.some_bind]
  have h8 : (toLE 4 (crc32 r.data) ++ List.replicate 4 0 ++ r.data).length
      = 8 + r.data.length := by
    simp [toLE_length]
    omega
  simp only [entryBytesV2, List.append_assoc] at h8 ⊢
  rw [h8]

theorem headerV2_eq (fbits : ℚ → Nat) (now : Int) (rs : List Record)
    (h : rs.length < 2 ^ 32) :
    headerV2 fbits now rs = some (magic ++ toLE 4 rs.length ++
      packF64 fbits (get_timestamp now) ++ List.replicate 16 0) := by
  unfold headerV2
  rw [packU32_eq _ h]
  rfl

theorem headerV1_patched (total : Nat) :
    setSlice headerV1base 0 (toLE 4 total)
      = toLE 4 total ++ List.replicate 48 0 ++ magic := by
  rfl

theorem trailerRecV2_eq (fbits : ℚ → Nat) (rs : List Record) (i : Nat) (r : Record)
    (h : offsetV2 rs i < 2 ^ 32) :
    trailerRecV2 fbits rs i r = some (trailerRecBytesV2 fbits rs i r) := by
  unfold trailerRecV2
  rw [packU32_eq _ h]
  rfl

theorem entryBytesV1_length (fbits : ℚ → Nat) (r : Record) :
    (entryBytesV1 fbits r).length
      = 32 + r.data.length + padTo 8 (32 + r.data.length) := by
  simp [entryBytesV1, toLE_length, packF64_length]
  omega

theorem entryBytesV2_length (r : Record) :
    (entryBytesV2 r).length = 8 + r.data.length + padTo 4 (8 + r.data.length) := by
  simp [entryBytesV2, toLE_length]
  omega

theorem trailerRecBytesV2_length (fbits : ℚ → Nat) (rs : List Record) (i : Nat) (r : Record) :
    (trailerRecBytesV2 fbits rs i r).length = 16 := by
  simp [trailerRecBytesV2, toLE_length, packF64_length]

/-! ## Shape of a successful encode -/

theorem encodeEntries_v1 (fbits : ℚ → Nat) (rs : List Record)
    (h : ∀ r ∈ rs, r.data.length < 2 ^ 32) :
    encodeEntries (entryV1 fbits) rs = some (rs.map (entryBytesV1 fbits)) := by
  induction rs with
  | nil => rfl
  | cons r tl ih =>
    simp only [encodeEntries]
    rw [entryV1_eq fbits r (h r (List.mem_cons_self r tl)),
      ih fun x hx => h x (List.mem_cons_of_mem r hx)]
    rfl

theorem entryV1_none (fbits : ℚ → Nat) (r : Record) (h : ¬ r.data.length < 2 ^ 32) :
    entryV1 fbits r = none := by
  unfold entryV1 entryHeaderV1 packU32
  rw [if_neg h]
  rfl

theorem encodeEntries_v1_some (fbits : ℚ → Nat) (rs : List Record) (es : List (List Nat))
    (h : encodeEntries (entryV1 fbits) rs = some es) :
    (∀ r ∈ rs, r.data.length < 2 ^ 32) ∧ es = rs.map (entryBytesV1 fbits) := by
  induction rs generalizing es with
  | nil =>
    simp only [encodeEntries, Option.some.injEq] at h
    exact ⟨by simp, by simp [← h]⟩
  | cons r tl ih =>
    by_cases hr : r.data.length < 2 ^ 32
    · simp only [encodeEntries, entryV1_eq fbits r hr, Option.some_bind] at h
      cases htl : encodeEntries (entryV1 fbits) tl with
      | none => rw [htl] at h; simp at h
      | some es2 =>
        rw [htl] at h
        simp only [Option.some_bind, Option.some.injEq] at h
        obtain ⟨h1, h2⟩ := ih es2 htl
        constructor
        · intro x hx
          rcases List.mem_cons.mp hx with hx | hx
          · exact hx ▸ hr
          · exact h1 x hx
        · rw [← h, h2]
          rfl
    · rw [encodeEntries, entryV1_none fbits r hr] at h
      simp at h

theorem encodeEntries_v2 (rs : List Record) :
    encodeEntries entryV2 rs = some (rs.map entryBytesV2) := by
  induction rs with
  | nil => rfl
  | cons r tl ih =>
    simp only [encodeEntries]
    rw [entryV2_eq, ih]
    rfl

theorem map_length_entryBytesV1 (fbits : ℚ → Nat) (rs : List Record) :
    (rs.map (entryBytesV1 fbits)).map List.length = entrySizesV1 rs := by
  induction rs with
  | nil => rfl
  | cons r tl ih =>
    simp only [List.map_cons, entrySizesV1] at ih ⊢
    rw [entryBytesV1_length, ih]

theorem map_length_entryBytesV2 (rs : List Record) :
    (rs.map entryBytesV2).map List.length = entrySizesV2 rs := by
  induction rs with
  | nil => rfl
  | cons r tl ih =>
    simp only [List.map_cons, entrySizesV2] at ih ⊢
    rw [entryBytesV2_length, ih]

theorem trailerV2from_some (fbits : ℚ → Nat) (rs : List Record) (tl : List Record)
    (i : Nat) (ts : List (List Nat)) (h : trailerV2from fbits rs i tl = some ts) :
    ts = trailerBytesV2 fbits rs i tl ∧ ∀ k < tl.length, offsetV2 rs (i + k) < 2 ^ 32 := by
  induction tl generalizing i ts with
  | nil =>
    simp only [trailerV2from, Option.some.injEq] at h
    exact ⟨h.symm, by intro k hk; simp at hk⟩
  | cons r tl2 ih =>
    by_cases ho : offsetV2 rs i < 2 ^ 32
    · simp only [trailerV2from, trailerRecV2_eq fbits rs i r ho, Option.some_bind] at h
      cases hrest : trailerV2from fbits rs (i + 1) tl2 with
      | none => rw [hrest] at h; simp at h
      | some ts2 =>
        rw [hrest] at h
        simp only [Option.some_bind, Option.some.injEq] at h
        obtain ⟨e1, e2⟩ := ih (i + 1) ts2 hrest
        constructor
        · rw [← h, e1]
          rfl
        · intro k hk
          cases k with
          | zero => simpa using ho
          | succ k2 =>
            have := e2 k2 (by simpa using hk)
            have harith : i + 1 + k2 = i + (k2 + 1) := by omega
            rwa [harith] at this
    · simp only [trailerV2from, trailerRecV2, packU32, if_neg ho] at h
      simp at h

theorem trailerV2from_eq (fbits : ℚ → Nat) (rs : List Record) (tl : List Record) (i : Nat)
    (h : ∀ k < tl.length, offsetV2 rs (i + k) < 2 ^ 32) :
    trailerV2from fbits rs i tl = some (trailerBytesV2 fbits rs i tl) := by
  induction tl generalizing i with
  | nil => rfl
  | cons r tl2 ih =>
    have h0 : offsetV2 rs i < 2 ^ 32 := by simpa using h 0 (by simp)
    simp only [trailerV2from, trailerRecV2_eq fbits rs i r h0, Option.some_bind]
    rw [ih (i + 1) fun k hk => by
      have := h (k + 1) (by simpa using hk)
      have harith : i + (k + 1) = i + 1 + k := by omega
      rwa [harith] at this]
    rfl

theorem encodeV1_some_eq (fbits : ℚ → Nat) (rs : List Record) (out : List Nat)
    (h : encodeV1 fbits rs = some out) :
    (∀ r ∈ rs, r.data.length < 2 ^ 32) ∧ 0x38 + (entrySizesV1 rs).sum < 2 ^ 32 ∧
    out = toLE 4 (0x38 + (entrySizesV1 rs).sum) ++ List.replicate 48 0 ++ magic
      ++ (rs.map (entryBytesV1 fbits)).flatten := by
  unfold encodeV1 at h
  cases hes : encodeEntries (entryV1 fbits) rs with
  | none => rw [hes] at h; simp at h
  | some es =>
    rw [hes] at h
    simp only [Option.some_bind] at h
    obtain ⟨h1, h2⟩ := encodeEntries_v1_some fbits rs es hes
    subst h2
    rw [map_length_entryBytesV1] at h
    by_cases ht : 0x38 + (entrySizesV1 rs).sum < 2 ^ 32
    · rw [packU32_eq _ ht] at h
      simp only [Option.some_bind, Option.some.injEq] at h
      refine ⟨h1, ht, ?_⟩
      rw [← h, headerV1_patched]
    · rw [packU32, if_neg ht] at h
      simp at h

theorem encodeV1_eq (fbits : ℚ → Nat) (rs : List Record)
    (h1 : ∀ r ∈ rs, r.data.length < 2 ^ 32)
    (ht : 0x38 + (entrySizesV1 rs).sum < 2 ^ 32) :
    encodeV1 fbits rs = some (toLE 4 (0x38 + (entrySizesV1 rs).sum)
      ++ List.replicate 48 0 ++ magic ++ (rs.map (entryBytesV1 fbits)).flatten) := by
  unfold encodeV1
  rw [encodeEntries_v1 fbits rs h1]
  simp only [Option.some_bind]
  rw [map_length_entryBytesV1, packU32_eq _ ht]
  simp only [Option.some_bind, headerV1_patched]

theorem encodeV2_some_eq (fbits : ℚ → Nat) (now : Int) (rs : List Record) (out : List Nat)
    (h : encodeV2 fbits now rs = some out) :
    rs.length < 2 ^ 32 ∧ (∀ k < rs.length, offsetV2 rs k < 2 ^ 32) ∧
    out = magic ++ toLE 4 rs.length ++ packF64 fbits (get_timestamp now)
      ++ List.replicate 16 0 ++ (rs.map entryBytesV2).flatten
      ++ (trailerBytesV2 fbits rs 0 rs).flatten := by
  unfold encodeV2 at h
  by_cases hn : rs.length < 2 ^ 32
  · rw [headerV2_eq fbits now rs hn] at h
    simp only [Option.some_bind] at h
    rw [encodeEntries_v2 rs] at h
    simp only [Option.some_bind] at h
    cases hts : trailerV2from fbits rs 0 rs with
    | none => rw [hts] at h; simp at h
    | some ts =>
      rw [hts] at h
      simp only [Option.some_bind, Option.some.injEq] at h
      obtain ⟨e1, e2⟩ := trailerV2from_some fbits rs rs 0 ts hts
      refine ⟨hn, fun k hk => by simpa using e2 k hk, ?_⟩
      rw [← h, e1]
  · rw [headerV2, packU32, if_neg hn] at h
    simp at h

theorem decodeV1Entries_round (fbits : ℚ → Nat) (rs : List Record) :
    ∀ pre : List Nat, (∀ r ∈ rs, r.data.length < 2 ^ 32) →
    decodeV1Entries (pre ++ (rs.map (entryBytesV1 fbits)).flatten)
      (pre.length + (entrySizesV1 rs).sum) pre.length = some (rs.map Record.data) := by
  induction rs with
  | nil =>
    intro pre _
    rw [decodeV1Entries.eq_def]
    simp [entrySizesV1]
  | cons r tl ih =>
    intro pre h
    have hL : r.data.length < 2 ^ 32 := h r (List.mem_cons_self r tl)
    have htl : ∀ x ∈ tl, x.data.length < 2 ^ 32 := fun x hx => h x (List.mem_cons_of_mem r hx)
    have hElen := entryBytesV1_length fbits r
    have hrestlen : ((tl.map (entryBytesV1 fbits)).flatten).length = (entrySizesV1 tl).sum := by
      rw [List.length_flatten, map_length_entryBytesV1]
    have hsum : (entrySizesV1 (r :: tl)).sum
        = 32 + r.data.length + padTo 8 (32 + r.data.length) + (entrySizesV1 tl).sum := by
      simp [entrySizesV1]
    have hflat : ((r :: tl).map (entryBytesV1 fbits)).flatten
        = entryBytesV1 fbits r ++ (tl.map (entryBytesV1 fbits)).flatten := by
      simp
    have hblen : (pre ++ (entryBytesV1 fbits r ++ (tl.map (entryBytesV1 fbits)).flatten)).length
        = pre.length + (32 + r.data.length + padTo 8 (32 + r.data.length))
          + (entrySizesV1 tl).sum := by
      simp only [List.length_append, hElen, hrestlen]
      omega
    have hs4 : fromLE (slice (pre ++ (entryBytesV1 fbits r
        ++ (tl.map (entryBytesV1 fbits)).flatten)) pre.length 4) = r.data.length := by
      rw [slice_at_start]
      rw [show entryBytesV1 fbits r ++ (tl.map (entryBytesV1 fbits)).flatten
          = toLE 4 r.data.length ++ (toLE 4 1
            ++ packF64 fbits (get_timestamp r.dateMicros)
            ++ packF64 fbits (get_timestamp r.dateMicros) ++ toLE 4 (crc32 r.data)
            ++ List.replicate 4 0 ++ r.data
            ++ List.replicate (padTo 8 (32 + r.data.length)) 0
            ++ (tl.map (entryBytesV1 fbits)).flatten)
        from by simp [entryBytesV1, List.append_assoc]]
      rw [List.take_left' (toLE_length 4 r.data.length)]
      refine fromLE_toLE 4 r.data.length ?_
      have h4 : (256 : Nat) ^ 4 = 2 ^ 32 := by norm_num
      rw [h4]
      exact hL
    have hdata : slice (pre ++ (entryBytesV1 fbits r
        ++ (tl.map (entryBytesV1 fbits)).flatten)) (pre.length + 32) r.data.length
        = r.data := by
      rw [show pre ++ (entryBytesV1 fbits r ++ (tl.map (entryBytesV1 fbits)).flatten)
          = (pre ++ (toLE 4 r.data.length ++ toLE 4 1
            ++ packF64 fbits (get_timestamp r.dateMicros)
            ++ packF64 fbits (get_timestamp r.dateMicros) ++ toLE 4 (crc32 r.data)
            ++ List.replicate 4 0))
            ++ (r.data ++ (List.replicate (padTo 8 (32 + r.data.length)) 0
              ++ (tl.map (entryBytesV1 fbits)).flatten))
        from by simp [entryBytesV1, List.append_assoc]]
      rw [show pre.length + 32 = (pre ++ (toLE 4 r.data.length ++ toLE 4 1
            ++ packF64 fbits (get_timestamp r.dateMicros)
            ++ packF64 fbits (get_timestamp r.dateMicros) ++ toLE 4 (crc32 r.data)
            ++ List.replicate 4 0)).length
        from by simp [toLE_length, packF64_length]]
      rw [slice_at_start]
      exact List.take_left' rfl
    rw [hflat, hsum, decodeV1Entries.eq_def]
    rw [dif_neg (by omega)]
    rw [if_neg (by rw [hblen]; omega)]
    rw [hs4]
    rw [if_neg (by rw [hblen]; omega)]
    rw [hdata]
    have ih' := ih (pre ++ entryBytesV1 fbits r) htl
    rw [List.append_assoc] at ih'
    have e1 : (pre ++ entryBytesV1 fbits r).length
        = pre.length + (32 + r.data.length + padTo 8 (32 + r.data.length)) := by
      simp [hElen]
    rw [e1] at ih'
    have e2 : pre.length + (32 + r.data.length + padTo 8 (32 + r.data.length))
        + (entrySizesV1 tl).sum
        = pre.length + (32 + r.data.length + padTo 8 (32 + r.data.length)
          + (entrySizesV1 tl).sum) := by
      omega
    have e3 : pre.length + (32 + r.data.length + padTo 8 (32 + r.data.length))
        = pre.length + 32 + r.data.length + padTo 8 (32 + r.data.length) := by
      omega
    rw [e2, e3] at ih'
    rw [ih']
    rfl

theorem takeWhile_replicate_zero (p : Nat) (l : List Nat) :
    (List.replicate p 0 ++ l).takeWhile (fun b => b == 0)
      = List.replicate p 0 ++ l.takeWhile (fun b => b == 0) := by
  induction p with
  | zero => simp
  | succ k ih => simp [List.replicate_succ, List.takeWhile_cons, ih]

theorem trailingZeros_data_pad (data : List Nat) (p : Nat)
    (hd : data.getLast? ≠ some 0) :
    trailingZeros (data ++ List.replicate p 0) = p := by
  unfold trailingZeros
  rw [List.reverse_append, List.reverse_replicate, takeWhile_replicate_zero]
  cases hrev : data.reverse with
  | nil => simp
  | cons b t =>
    have hb : b ≠ 0 := by
      have h1 : data.reverse.head? = data.getLast? := List.head?_reverse data
      rw [hrev] at h1
      intro hb0
      apply hd
      rw [← h1, hb0]
      rfl
    simp [List.takeWhile_cons, hb]

theorem stripPadV2_data_pad (data : List Nat) (hd : data.getLast? ≠ some 0) :
    stripPadV2 (data ++ List.replicate (padTo 4 (8 + data.length)) 0) = data := by
  have hp : padTo 4 (8 + data.length) < 4 := Nat.mod_lt _ (by norm_num)
  unfold stripPadV2
  rw [trailingZeros_data_pad data _ hd]
  rw [show min 3 (padTo 4 (8 + data.length)) = padTo 4 (8 + data.length) from by omega]
  have hlen2 : (data ++ List.replicate (padTo 4 (8 + data.length)) 0).length
      = data.length + padTo 4 (8 + data.length) := by simp
  rw [hlen2, Nat.add_sub_cancel]
  exact List.take_left' rfl

theorem decodeV2Entry_spec (pre rest : List Nat) (r : Record)
    (hd : r.data.getLast? ≠ some 0) :
    decodeV2Entry (pre ++ (entryBytesV2 r ++ rest)) pre.length
      (pre.length + (entryBytesV2 r).length) = some r.data := by
  have hS := entryBytesV2_length r
  unfold decodeV2Entry
  rw [if_neg (by rw [hS]; omega)]
  rw [if_neg (by simp [hS])]
  congr 1
  rw [show pre.length + (entryBytesV2 r).length - pre.length - 8
      = r.data.length + padTo 4 (8 + r.data.length) from by rw [hS]; omega]
  rw [show pre ++ (entryBytesV2 r ++ rest)
      = (pre ++ (toLE 4 (crc32 r.data) ++ List.replicate 4 0))
        ++ ((r.data ++ List.replicate (padTo 4 (8 + r.data.length)) 0) ++ rest) from by
    simp [entryBytesV2, List.append_assoc]]
  rw [show pre.length + 8 = (pre ++ (toLE 4 (crc32 r.data)
      ++ List.replicate 4 0)).length from by simp [toLE_length]]
  rw [slice_at_start]
  rw [List.take_left' (by simp)]
  exact stripPadV2_data_pad r.data hd

theorem decodeV2Entries_round (rs : List Record) :
    ∀ pre : List Nat, (∀ r ∈ rs, r.data.getLast? ≠ some 0) →
    decodeV2Entries (pre ++ (rs.map entryBytesV2).flatten) (offsetsFrom pre.length rs)
      = some (rs.map Record.data) := by
  induction rs with
  | nil =>
    intro pre _
    rfl
  | cons r tl ih =>
    intro pre h
    have hd : r.data.getLast? ≠ some 0 := h r (List.mem_cons_self r tl)
    have htl : ∀ x ∈ tl, x.data.getLast? ≠ some 0 :=
      fun x hx => h x (List.mem_cons_of_mem r hx)
    have hS := entryBytesV2_length r
    have hflat : ((r :: tl).map entryBytesV2).flatten
        = entryBytesV2 r ++ (tl.map entryBytesV2).flatten := by
      simp
    have ih' := ih (pre ++ entryBytesV2 r) htl
    rw [List.append_assoc] at ih'
    rw [show (pre ++ entryBytesV2 r).length
        = pre.length + (entryBytesV2 r).length from by simp] at ih'
    cases tl with
    | nil =>
      rw [hflat]
      show (decodeV2Entry (pre ++ (entryBytesV2 r ++ ([] : List (List Nat)).flatten))
        pre.length (pre ++ (entryBytesV2 r
          ++ ([] : List (List Nat)).flatten)).length).bind _ = _
      rw [show (pre ++ (entryBytesV2 r ++ ([] : List (List Nat)).flatten)).length
          = pre.length + (entryBytesV2 r).length from by simp]
      rw [decodeV2Entry_spec pre ([] : List (List Nat)).flatten r hd]
      rfl
    | cons t tl2 =>
      rw [hflat]
      show (decodeV2Entry (pre ++ (entryBytesV2 r ++ ((t :: tl2).map entryBytesV2).flatten))
        pre.length (pre.length + (8 + r.data.length + padTo 4 (8 + r.data.length)))).bind _ = _
      rw [show pre.length + (8 + r.data.length + padTo 4 (8 + r.data.length))
          = pre.length + (entryBytesV2 r).length from by rw [hS]]
      rw [decodeV2Entry_spec pre (((t :: tl2).map entryBytesV2).flatten) r hd]
      rw [ih']
      rfl

theorem trailerBytesV2_flatten_length (fbits : ℚ → Nat) (rs : List Record) :
    ∀ (tl : List Record) (i0 : Nat),
    ((trailerBytesV2 fbits rs i0 tl).flatten).length = 16 * tl.length := by
  intro tl
  induction tl with
  | nil => intro i0; rfl
  | cons r tl2 ih =>
    intro i0
    simp only [trailerBytesV2, List.flatten_cons, List.length_append,
      trailerRecBytesV2_length, ih, List.length_cons]
    omega

theorem readTrailerOffsets_cons (t T2 : List Nat) (ht : t.length = 16) (m : Nat) :
    readTrailerOffsets (t ++ T2) (m + 1)
      = fromLE (t.take 4) :: readTrailerOffsets T2 m := by
  unfold readTrailerOffsets
  rw [List.range_succ_eq_map]
  simp only [List.map_cons, List.map_map, Nat.mul_zero]
  congr 1
  · rw [slice_zero, List.take_append_of_le_length (by omega)]
  · apply List.map_congr_left
    intro i _
    simp only [Function.comp_apply]
    have h16 : 16 * Nat.succ i = t.length + 16 * i := by omega
    rw [h16, slice_append_right]

theorem offsetV2_succ (rs : List Record) (i : Nat) (r : Record) (tl : List Record)
    (h : rs.drop i = r :: tl) :
    offsetV2 rs (i + 1)
      = offsetV2 rs i + (8 + r.data.length + padTo 4 (8 + r.data.length)) := by
  have hget : rs[i]? = some r := by
    rw [← List.head?_drop, h]
    rfl
  unfold offsetV2
  rw [List.take_succ]
  have hsz : (entrySizesV2 rs)[i]?
      = some (8 + r.data.length + padTo 4 (8 + r.data.length)) := by
    unfold entrySizesV2
    rw [List.getElem?_map, hget]
    rfl
  rw [hsz]
  simp

theorem readTrailerOffsets_go (fbits : ℚ → Nat) (rs : List Record) :
    ∀ (tl : List Record) (i0 : Nat), rs.drop i0 = tl →
    (∀ k < tl.length, offsetV2 rs (i0 + k) < 2 ^ 32) →
    readTrailerOffsets ((trailerBytesV2 fbits rs i0 tl).flatten) tl.length
      = offsetsFrom (offsetV2 rs i0) tl := by
  intro tl
  induction tl with
  | nil => intro i0 _ _; rfl
  | cons r tl2 ih =>
    intro i0 hdrop h
    have h0 : offsetV2 rs (i0 + 0) < 2 ^ 32 := h 0 (by simp)
    rw [Nat.add_zero] at h0
    have hdrop2 : rs.drop (i0 + 1) = tl2 := by
      rw [← List.drop_drop, hdrop]
      rfl
    have hflat : (trailerBytesV2 fbits rs i0 (r :: tl2)).flatten
        = trailerRecBytesV2 fbits rs i0 r
          ++ (trailerBytesV2 fbits rs (i0 + 1) tl2).flatten := by
      simp [trailerBytesV2]
    rw [hflat]
    rw [show (r :: tl2).length = tl2.length + 1 from rfl]
    rw [readTrailerOffsets_cons _ _ (trailerRecBytesV2_length fbits rs i0 r) tl2.length]
    have hhead : (trailerRecBytesV2 fbits rs i0 r).take 4 = toLE 4 (offsetV2 rs i0) := by
      unfold trailerRecBytesV2
      rw [show toLE 4 (offsetV2 rs i0) ++ toLE 4 1
            ++ packF64 fbits (get_timestamp r.dateMicros)
          = toLE 4 (offsetV2 rs i0) ++ (toLE 4 1
            ++ packF64 fbits (get_timestamp r.dateMicros)) from by
        simp [List.append_assoc]]
      exact List.take_left' (toLE_length 4 _)
    rw [hhead, fromLE_toLE 4 _ (by
      rw [show (256 : Nat) ^ 4 = 2 ^ 32 from by norm_num]
      exact h0)]
    rw [ih (i0 + 1) hdrop2 fun k hk => by
      have := h (k + 1) (by simpa using hk)
      rwa [show i0 + (k + 1) = i0 + 1 + k from by omega] at this]
    rw [offsetV2_succ rs i0 r tl2 hdrop]
    rfl

theorem decodeV1_round (fbits : ℚ → Nat) (rs : List Record) (out : List Nat)
    (h : encodeV1 fbits rs = some out) :
    decodeV1 out = some (rs.map Record.data) := by
  obtain ⟨h1, ht, hout⟩ := encodeV1_some_eq fbits rs out h
  have hflatlen : ((rs.map (entryBytesV1 fbits)).flatten).length = (entrySizesV1 rs).sum := by
    rw [List.length_flatten, map_length_entryBytesV1]
  have hlen : out.length = 0x38 + (entrySizesV1 rs).sum := by
    rw [hout]
    simp [toLE_length, magic, hflatlen]
    omega
  have hm : slice out 0x34 4 = magic := by
    rw [hout]
    rw [show toLE 4 (0x38 + (entrySizesV1 rs).sum) ++ List.replicate 48 0 ++ magic
        ++ (rs.map (entryBytesV1 fbits)).flatten
        = (toLE 4 (0x38 + (entrySizesV1 rs).sum) ++ List.replicate 48 0)
          ++ (magic ++ (rs.map (entryBytesV1 fbits)).flatten) from by
      simp [List.append_assoc]]
    rw [show (0x34 : Nat) = (toLE 4 (0x38 + (entrySizesV1 rs).sum)
        ++ List.replicate 48 0).length from by simp [toLE_length]]
    rw [slice_at_start]
    exact List.take_left' rfl
  have hoff : fromLE (slice out 0 4) = 0x38 + (entrySizesV1 rs).sum := by
    rw [hout, slice_zero]
    rw [show toLE 4 (0x38 + (entrySizesV1 rs).sum) ++ List.replicate 48 0 ++ magic
        ++ (rs.map (entryBytesV1 fbits)).flatten
        = toLE 4 (0x38 + (entrySizesV1 rs).sum) ++ (List.replicate 48 0 ++ magic
          ++ (rs.map (entryBytesV1 fbits)).flatten) from by
      simp [List.append_assoc]]
    rw [List.take_left' (toLE_length 4 _)]
    refine fromLE_toLE 4 _ ?_
    rw [show (256 : Nat) ^ 4 = 2 ^ 32 from by norm_num]
    exact ht
  unfold decodeV1
  rw [if_neg (by rw [hlen]; omega), if_neg (by simp [hm]), hoff]
  have hloop := decodeV1Entries_round fbits rs
    (toLE 4 (0x38 + (entrySizesV1 rs).sum) ++ List.replicate 48 0 ++ magic) h1
  have hplen : (toLE 4 (0x38 + (entrySizesV1 rs).sum) ++ List.replicate 48 0
      ++ magic).length = 0x38 := by
    simp [toLE_length, magic]
  rw [hplen] at hloop
  rw [hout]
  simp only [List.append_assoc] at hloop ⊢
  exact hloop

theorem slice_flatten_v1 (fbits : ℚ → Nat) (rs : List Record) :
    ∀ (i : Nat) (hi : i < rs.length) (pre : List Nat) (d n : Nat),
    d + n ≤ (entryBytesV1 fbits (rs.get ⟨i, hi⟩)).length →
    slice (pre ++ (rs.map (entryBytesV1 fbits)).flatten)
      (pre.length + ((entrySizesV1 rs).take i).sum + d) n
      = slice (entryBytesV1 fbits (rs.get ⟨i, hi⟩)) d n := by
  induction rs with
  | nil => intro i hi; exact absurd hi (by simp)
  | cons r tl ih =>
    intro i hi pre d n hdn
    cases i with
    | zero =>
      rw [show ((entrySizesV1 (r :: tl)).take 0).sum = 0 from rfl, Nat.add_zero]
      rw [show ((r :: tl).map (entryBytesV1 fbits)).flatten
          = entryBytesV1 fbits r ++ (tl.map (entryBytesV1 fbits)).flatten from by simp]
      rw [slice_append_right]
      exact slice_append_left _ _ d n hdn
    | succ j =>
      have hsz : ((entrySizesV1 (r :: tl)).take (j + 1)).sum
          = (32 + r.data.length + padTo 8 (32 + r.data.length))
            + ((entrySizesV1 tl).take j).sum := by
        simp [entrySizesV1]
      rw [hsz]
      rw [show ((r :: tl).map (entryBytesV1 fbits)).flatten
          = entryBytesV1 fbits r ++ (tl.map (entryBytesV1 fbits)).flatten from by simp]
      rw [← List.append_assoc]
      have harith : pre.length + ((32 + r.data.length + padTo 8 (32 + r.data.length))
            + ((entrySizesV1 tl).take j).sum) + d
          = (pre ++ entryBytesV1 fbits r).length + ((entrySizesV1 tl).take j).sum + d := by
        simp [entryBytesV1_length]
        omega
      rw [harith]
      exact ih j (by simpa using hi) (pre ++ entryBytesV1 fbits r) d n hdn

theorem slice_flatten_v2 (rs : List Record) :
    ∀ (i : Nat) (hi : i < rs.length) (pre : List Nat) (d n : Nat),
    d + n ≤ (entryBytesV2 (rs.get ⟨i, hi⟩)).length →
    slice (pre ++ (rs.map entryBytesV2).flatten)
      (pre.length + ((entrySizesV2 rs).take i).sum + d) n
      = slice (entryBytesV2 (rs.get ⟨i, hi⟩)) d n := by
  induction rs with
  | nil => intro i hi; exact absurd hi (by simp)
  | cons r tl ih =>
    intro i hi pre d n hdn
    cases i with
    | zero =>
      rw [show ((entrySizesV2 (r :: tl)).take 0).sum = 0 from rfl, Nat.add_zero]
      rw [show ((r :: tl).map entryBytesV2).flatten
          = entryBytesV2 r ++ (tl.map entryBytesV2).flatten from by simp]
      rw [slice_append_right]
      exact slice_append_left _ _ d n hdn
    | succ j =>
      have hsz : ((entrySizesV2 (r :: tl)).take (j + 1)).sum
          = (8 + r.data.length + padTo 4 (8 + r.data.length))
            + ((entrySizesV2 tl).take j).sum := by
        simp [entrySizesV2]
      rw [hsz]
      rw [show ((r :: tl).map entryBytesV2).flatten
          = entryBytesV2 r ++ (tl.map entryBytesV2).flatten from by simp]
      rw [← List.append_assoc]
      have harith : pre.length + ((8 + r.data.length + padTo 4 (8 + r.data.length))
            + ((entrySizesV2 tl).take j).sum) + d
          = (pre ++ entryBytesV2 r).length + ((entrySizesV2 tl).take j).sum + d := by
        simp [entryBytesV2_length]
        omega
      rw [harith]
      exact ih j (by simpa using hi) (pre ++ entryBytesV2 r) d n hdn

theorem slice_flatten_tr (fbits : ℚ → Nat) (rs : List Record) :
    ∀ (tl : List Record) (i0 : Nat) (i : Nat) (hi : i < tl.length) (pre : List Nat) (d n : Nat),
    d + n ≤ 16 →
    slice (pre ++ (trailerBytesV2 fbits rs i0 tl).flatten) (pre.length + 16 * i + d) n
      = slice (trailerRecBytesV2 fbits rs (i0 + i) (tl.get ⟨i, hi⟩)) d n := by
  intro tl
  induction tl with
  | nil => intro i0 i hi; exact absurd hi (by simp)
  | cons r tl2 ih =>
    intro i0 i hi pre d n hdn
    cases i with
    | zero =>
      rw [Nat.mul_zero, Nat.add_zero, Nat.add_zero]
      rw [show (trailerBytesV2 fbits rs i0 (r :: tl2)).flatten
          = trailerRecBytesV2 fbits rs i0 r
            ++ (trailerBytesV2 fbits rs (i0 + 1) tl2).flatten from by
        simp [trailerBytesV2]]
      rw [slice_append_right]
      exact slice_append_left _ _ d n
        (by rw [trailerRecBytesV2_length]; exact hdn)
    | succ j =>
      rw [show (trailerBytesV2 fbits rs i0 (r :: tl2)).flatten
          = trailerRecBytesV2 fbits rs i0 r
            ++ (trailerBytesV2 fbits rs (i0 + 1) tl2).flatten from by
        simp [trailerBytesV2]]
      rw [← List.append_assoc]
      have harith : pre.length + 16 * (j + 1) + d
          = (pre ++ trailerRecBytesV2 fbits rs i0 r).length + 16 * j + d := by
        simp [trailerRecBytesV2_length]
        omega
      rw [harith]
      have hres := ih (i0 + 1) j (by simpa using hi)
        (pre ++ trailerRecBytesV2 fbits rs i0 r) d n hdn
      rwa [show i0 + 1 + j = i0 + (j + 1) from by omega] at hres

theorem entryBytesV1_field_len (fbits : ℚ → Nat) (r : Record) :
    slice (entryBytesV1 fbits r) 0x00 4 = toLE 4 r.data.length := rfl

theorem entryBytesV1_field_state (fbits : ℚ → Nat) (r : Record) :
    slice (entryBytesV1 fbits r) 0x04 4 = toLE 4 1 := rfl

theorem entryBytesV1_field_ts1 (fbits : ℚ → Nat) (r : Record) :
    slice (entryBytesV1 fbits r) 0x08 8
      = packF64 fbits (get_timestamp r.dateMicros) := rfl

theorem entryBytesV1_field_ts2 (fbits : ℚ → Nat) (r : Record) :
    slice (entryBytesV1 fbits r) 0x10 8
      = packF64 fbits (get_timestamp r.dateMicros) := rfl

theorem entryBytesV1_field_crc (fbits : ℚ → Nat) (r : Record) :
    slice (entryBytesV1 fbits r) 0x18 4 = toLE 4 (crc32 r.data) := rfl

theorem entryBytesV1_field_res (fbits : ℚ → Nat) (r : Record) :
    slice (entryBytesV1 fbits r) 0x1C 4 = List.replicate 4 0 := rfl

theorem entryBytesV2_field_crc (r : Record) :
    slice (entryBytesV2 r) 0x00 4 = toLE 4 (crc32 r.data) := rfl

theorem trailerRecBytesV2_field_off (fbits : ℚ → Nat) (rs : List Record) (i : Nat) (r : Record) :
    slice (trailerRecBytesV2 fbits rs i r) 0x00 4 = toLE 4 (offsetV2 rs i) := rfl

theorem trailerRecBytesV2_whole (fbits : ℚ → Nat) (rs : List Record) (i : Nat) (r : Record) :
    slice (trailerRecBytesV2 fbits rs i r) 0 16
      = toLE 4 (offsetV2 rs i) ++ toLE 4 1
        ++ packF64 fbits (get_timestamp r.dateMicros) := by
  rw [slice_zero, show (16 : Nat) = (trailerRecBytesV2 fbits rs i r).length from
    (trailerRecBytesV2_length fbits rs i r).symm, List.take_length]
  rfl

theorem padded_mod (a sz : Nat) (ha : 0 < a) : (sz + padTo a sz) % a = 0 := by
  have h1 : sz % a < a := Nat.mod_lt _ ha
  by_cases h0 : sz % a = 0
  · simp [padTo, h0, Nat.sub_zero, Nat.mod_self, Nat.add_zero]
  · have h2 : (a - sz % a) % a = a - sz % a := Nat.mod_eq_of_lt (by omega)
    rw [padTo, h2]
    rw [show sz + (a - sz % a) = a * (sz / a + 1) from by
      have := Nat.div_add_mod sz a
      have hmul : a * (sz / a + 1) = a * (sz / a) + a := by ring
      omega]
    exact Nat.mul_mod_right a _

theorem sizesV2_getElem (rs : List Record) (i : Nat) (hi : i < rs.length) :
    (entrySizesV2 rs)[i]? = some (8 + (rs.get ⟨i, hi⟩).data.length
      + padTo 4 (8 + (rs.get ⟨i, hi⟩).data.length)) := by
  unfold entrySizesV2
  rw [List.getElem?_map, List.getElem?_eq_getElem hi]
  rfl

theorem offsetV2_take_succ (rs : List Record) (i : Nat) (hi : i < rs.length) :
    offsetV2 rs (i + 1) = offsetV2 rs i + (8 + (rs.get ⟨i, hi⟩).data.length
      + padTo 4 (8 + (rs.get ⟨i, hi⟩).data.length)) := by
  unfold offsetV2
  rw [List.take_succ, sizesV2_getElem rs i hi]
  simp

theorem offsetV2_le_sum (rs : List Record) (i : Nat) :
    offsetV2 rs i ≤ (entrySizesV2 rs).sum := by
  unfold offsetV2
  have := List.sum_take_add_sum_drop (entrySizesV2 rs) i
  omega

theorem decodeV2_round (fbits : ℚ → Nat) (now : Int) (rs : List Record) (out : List Nat)
    (h : encodeV2 fbits now rs = some out)
    (hd : ∀ r ∈ rs, r.data.getLast? ≠ some 0) :
    decodeV2 out = some (rs.map Record.data) := by
  obtain ⟨hn, hoff, hout⟩ := encodeV2_some_eq fbits now rs out h
  have hET : ((rs.map entryBytesV2).flatten).length = (entrySizesV2 rs).sum := by
    rw [List.length_flatten, map_length_entryBytesV2]
  have hTT := trailerBytesV2_flatten_length fbits rs rs 0
  have hlen : out.length = 32 + (entrySizesV2 rs).sum + 16 * rs.length := by
    rw [hout]
    simp [toLE_length, packF64_length, magic, hET, hTT]
    omega
  have hmag : slice out 0 4 = magic := by
    rw [hout]
    rw [show magic ++ toLE 4 rs.length ++ packF64 fbits (get_timestamp now)
          ++ List.replicate 16 0 ++ (rs.map entryBytesV2).flatten
          ++ (trailerBytesV2 fbits rs 0 rs).flatten
        = magic ++ (toLE 4 rs.length ++ packF64 fbits (get_timestamp now)
          ++ List.replicate 16 0 ++ (rs.map entryBytesV2).flatten
          ++ (trailerBytesV2 fbits rs 0 rs).flatten) from by
      simp [List.append_assoc]]
    rw [slice_zero]
    exact List.take_left' rfl
  have hcount : fromLE (slice out 4 4) = rs.length := by
    rw [hout]
    rw [show magic ++ toLE 4 rs.length ++ packF64 fbits (get_timestamp now)
          ++ List.replicate 16 0 ++ (rs.map entryBytesV2).flatten
          ++ (trailerBytesV2 fbits rs 0 rs).flatten
        = magic ++ (toLE 4 rs.length ++ (packF64 fbits (get_timestamp now)
          ++ List.replicate 16 0 ++ (rs.map entryBytesV2).flatten
          ++ (trailerBytesV2 fbits rs 0 rs).flatten)) from by
      simp [List.append_assoc]]
    simp only [slice]
    rw [List.drop_left' (show magic.length = 4 from rfl),
      List.take_left' (toLE_length 4 _)]
    refine fromLE_toLE 4 _ ?_
    rw [show (256 : Nat) ^ 4 = 2 ^ 32 from by norm_num]
    exact hn
  have hreg : slice out 0x20 (out.length - 0x20 - 16 * rs.length)
      = (rs.map entryBytesV2).flatten := by
    rw [show out.length - 0x20 - 16 * rs.length = (entrySizesV2 rs).sum from by
      rw [hlen]; omega]
    rw [hout]
    rw [show magic ++ toLE 4 rs.length ++ packF64 fbits (get_timestamp now)
          ++ List.replicate 16 0 ++ (rs.map entryBytesV2).flatten
          ++ (trailerBytesV2 fbits rs 0 rs).flatten
        = (magic ++ toLE 4 rs.length ++ packF64 fbits (get_timestamp now)
          ++ List.replicate 16 0) ++ ((rs.map entryBytesV2).flatten
          ++ (trailerBytesV2 fbits rs 0 rs).flatten) from by
      simp [List.append_assoc]]
    simp only [slice]
    rw [List.drop_left' (show (magic ++ toLE 4 rs.length
        ++ packF64 fbits (get_timestamp now) ++ List.replicate 16 0).length
        = 0x20 from by simp [magic, toLE_length, packF64_length])]
    exact List.take_left' hET
  have htrail : out.drop (out.length - 16 * rs.length)
      = (trailerBytesV2 fbits rs 0 rs).flatten := by
    rw [show out.length - 16 * rs.length = 32 + (entrySizesV2 rs).sum from by
      rw [hlen]; omega]
    rw [hout]
    refine List.drop_left' ?_
    simp only [List.length_append, List.length_replicate, toLE_length, packF64_length,
      hET, show magic.length = 4 from rfl]
  unfold decodeV2
  rw [if_neg (show ¬ out.length < 0x20 by rw [hlen]; omega)]
  rw [if_neg (show ¬ slice out 0 4 ≠ magic by simp [hmag])]
  rw [hcount]
  rw [if_neg (show ¬ out.length < 0x20 + 16 * rs.length by rw [hlen]; omega)]
  rw [hreg, htrail]
  rw [readTrailerOffsets_go fbits rs rs 0 (List.drop_zero rs)
    fun k hk => by simpa using hoff k hk]
  rw [show offsetV2 rs 0 = 0 from rfl]
  have hround := decodeV2Entries_round rs [] hd
  simp only [List.nil_append, List.length_nil] at hround
  exact hround

theorem encodeV2_eq (fbits : ℚ → Nat) (now : Int) (rs : List Record)
    (hn : rs.length < 2 ^ 32) (hoff : ∀ k < rs.length, offsetV2 rs k < 2 ^ 32) :
    encodeV2 fbits now rs = some (magic ++ toLE 4 rs.length
      ++ packF64 fbits (get_timestamp now) ++ List.replicate 16 0
      ++ (rs.map entryBytesV2).flatten ++ (trailerBytesV2 fbits rs 0 rs).flatten) := by
  unfold encodeV2
  rw [headerV2_eq fbits now rs hn]
  simp only [Option.some_bind]
  rw [encodeEntries_v2 rs]
  simp only [Option.some_bind]
  rw [trailerV2from_eq fbits rs rs 0 fun k hk => by simpa using hoff k hk]
  simp [List.append_assoc]

/-! ## Claim theorems -/

/-- C1 (amended): decoding the bytes produced by encoding yields records
with byte-for-byte identical data, in the same order — unconditionally for
version 1, and for version 2 for sequences in which no record's data ends
in a zero byte (version 2 stores no explicit data length, so trailing zero
data bytes cannot be told apart from alignment padding by the
spec-described decoder). -/
theorem segb_C1_roundtrip (fbits : ℚ → Nat) (now : Int) (rs : List Record)
    (out1 out2 : List Nat)
    (h1 : encodeV1 fbits rs = some out1)
    (h2 : encodeV2 fbits now rs = some out2) :
    decodeV1 out1 = some (rs.map Record.data) ∧
    ((∀ r ∈ rs, r.data.getLast? ≠ some 0) →
      decodeV2 out2 = some (rs.map Record.data)) :=
  ⟨decodeV1_round fbits rs out1 h1,
   fun hd => decodeV2_round fbits now rs out2 h2 hd⟩

/-- C1 counterexample: for version 2, the single record with data bytes
[0, 0] encodes to a container that the spec-described decoder reads back
as the data [0]: the v2 round trip does not preserve data bytes. -/
theorem segb_C1_counterexample :
    (encodeV2 fb0 0 [⟨[0, 0], 0⟩]).bind decodeV2 = some [[0]] ∧
    ¬ (encodeV2 fb0 0 [⟨[0, 0], 0⟩]).bind decodeV2
        = some (([⟨[0, 0], 0⟩] : List Record).map Record.data) := by
  constructor
  · decide
  · decide

/-- C1 witness: the round trip at a concrete three-record input. -/
theorem segb_C1_witness :
    decodeV1 ((encodeV1 fb0 rs0).getD []) = some (rs0.map Record.data) ∧
    decodeV2 ((encodeV2 fb0 3 rs0).getD []) = some (rs0.map Record.data) := by
  have h := segb_C1_roundtrip fb0 3 rs0 ((encodeV1 fb0 rs0).getD [])
    ((encodeV2 fb0 3 rs0).getD []) (by decide) (by decide)
  exact ⟨h.1, h.2 (by decide)⟩

/-- C2: the u32 written into v1 header bytes [0x00:0x04) equals the 56-byte
header size plus the sum of all padded entry sizes, and equals the total
byte length of the emitted v1 container. -/
theorem segb_C2_end_offset (fbits : ℚ → Nat) (rs : List Record) (out : List Nat)
    (h : encodeV1 fbits rs = some out) :
    fromLE (slice out 0 4) = 0x38 + (entrySizesV1 rs).sum ∧
    fromLE (slice out 0 4) = out.length := by
  obtain ⟨h1, ht, hout⟩ := encodeV1_some_eq fbits rs out h
  have hflatlen : ((rs.map (entryBytesV1 fbits)).flatten).length
      = (entrySizesV1 rs).sum := by
    rw [List.length_flatten, map_length_entryBytesV1]
  have hoff : fromLE (slice out 0 4) = 0x38 + (entrySizesV1 rs).sum := by
    rw [hout, slice_zero]
    rw [show toLE 4 (0x38 + (entrySizesV1 rs).sum) ++ List.replicate 48 0 ++ magic
        ++ (rs.map (entryBytesV1 fbits)).flatten
        = toLE 4 (0x38 + (entrySizesV1 rs).sum) ++ (List.replicate 48 0 ++ magic
          ++ (rs.map (entryBytesV1 fbits)).flatten) from by
      simp [List.append_assoc]]
    rw [List.take_left' (toLE_length 4 _)]
    refine fromLE_toLE 4 _ ?_
    rw [show (256 : Nat) ^ 4 = 2 ^ 32 from by norm_num]
    exact ht
  have hlen : out.length = 0x38 + (entrySizesV1 rs).sum := by
    rw [hout]
    simp [toLE_length, magic, hflatlen]
    omega
  exact ⟨hoff, by rw [hoff, hlen]⟩

/-- C2 witness: the end offset at a concrete three-record input. -/
theorem segb_C2_witness :
    fromLE (slice ((encodeV1 fb0 rs0).getD []) 0 4)
      = 0x38 + (entrySizesV1 rs0).sum ∧
    fromLE (slice ((encodeV1 fb0 rs0).getD []) 0 4)
      = ((encodeV1 fb0 rs0).getD []).length :=
  segb_C2_end_offset fb0 rs0 ((encodeV1 fb0 rs0).getD []) (by decide)

/-- C3: for every record, in both versions, the stored 32-bit checksum is
the little-endian CRC32 of that record's raw unpadded data bytes only
(`crc32` is applied to `data` alone — header, trailer and padding bytes
never enter it). -/
theorem segb_C3_checksum (fbits : ℚ → Nat) (now : Int) (rs : List Record)
    (out1 out2 : List Nat) (i : Nat) (hi : i < rs.length)
    (h1 : encodeV1 fbits rs = some out1)
    (h2 : encodeV2 fbits now rs = some out2) :
    slice out1 (offsetV1 rs i + 0x18) 4 = toLE 4 (crc32 (rs.get ⟨i, hi⟩).data) ∧
    slice out2 (0x20 + offsetV2 rs i) 4 = toLE 4 (crc32 (rs.get ⟨i, hi⟩).data) := by
  obtain ⟨hwf, ht, hout1⟩ := encodeV1_some_eq fbits rs out1 h1
  obtain ⟨hn, hoffb, hout2⟩ := encodeV2_some_eq fbits now rs out2 h2
  constructor
  · rw [hout1]
    have hsf := slice_flatten_v1 fbits rs i hi
      (toLE 4 (0x38 + (entrySizesV1 rs).sum) ++ List.replicate 48 0 ++ magic) 0x18 4
      (by rw [entryBytesV1_length]; omega)
    rw [show offsetV1 rs i + 0x18
        = (toLE 4 (0x38 + (entrySizesV1 rs).sum) ++ List.replicate 48 0
          ++ magic).length + ((entrySizesV1 rs).take i).sum + 0x18 from by
      simp [offsetV1, toLE_length, magic]]
    rw [hsf]
    exact entryBytesV1_field_crc fbits (rs.get ⟨i, hi⟩)
  · rw [hout2]
    have hle : offsetV2 rs i + 8 ≤ (entrySizesV2 rs).sum := by
      have ha := offsetV2_take_succ rs i hi
      have hb := offsetV2_le_sum rs (i + 1)
      omega
    rw [slice_append_left _ _ _ _ (by
      simp only [List.length_append, List.length_replicate, toLE_length,
        packF64_length, List.length_flatten, map_length_entryBytesV2,
        show magic.length = 4 from rfl]
      omega)]
    have hsf := slice_flatten_v2 rs i hi
      (magic ++ toLE 4 rs.length ++ packF64 fbits (get_timestamp now)
        ++ List.replicate 16 0) 0 4
      (by rw [entryBytesV2_length]; omega)
    rw [show 0x20 + offsetV2 rs i
        = (magic ++ toLE 4 rs.length ++ packF64 fbits (get_timestamp now)
          ++ List.replicate 16 0).length + ((entrySizesV2 rs).take i).sum + 0 from by
      simp [offsetV2, magic, toLE_length, packF64_length]]
    rw [hsf]
    exact entryBytesV2_field_crc (rs.get ⟨i, hi⟩)

/-- C3 witness: the stored checksums at a concrete three-record input. -/
theorem segb_C3_witness :
    slice ((encodeV1 fb0 rs0).getD []) (offsetV1 rs0 1 + 0x18) 4
      = toLE 4 (crc32 (rs0.get ⟨1, by decide⟩).data) ∧
    slice ((encodeV2 fb0 3 rs0).getD []) (0x20 + offsetV2 rs0 1) 4
      = toLE 4 (crc32 (rs0.get ⟨1, by decide⟩).data) :=
  segb_C3_checksum fb0 3 rs0 ((encodeV1 fb0 rs0).getD [])
    ((encodeV2 fb0 3 rs0).getD []) 1 (by decide) (by decide) (by decide)

theorem slice_take (l : List Nat) (m d n : Nat) (h : d + n ≤ m) :
    slice (l.take m) d n = slice l d n := by
  simp only [slice]
  rw [List.drop_take, List.take_take, min_eq_left (by omega)]

/-- C4: for both versions the number of appended zero padding bytes is
`(a - sz % a) % a` with alignment 8 (v1) and 4 (v2); it is zero when the
unpadded size is already a multiple of the alignment, and every padded
entry size is an exact multiple of the alignment. -/
theorem segb_C4_padding (fbits : ℚ → Nat) (r : Record) (e1 e2 : List Nat) (sz : Nat)
    (h1 : entryV1 fbits r = some e1) (h2 : entryV2 r = some e2) :
    padTo 8 sz = (8 - sz % 8) % 8 ∧
    padTo 4 sz = (4 - sz % 4) % 4 ∧
    (sz % 8 = 0 → padTo 8 sz = 0) ∧
    (sz % 4 = 0 → padTo 4 sz = 0) ∧
    e1.length = 32 + r.data.length + padTo 8 (32 + r.data.length) ∧
    e2.length = 8 + r.data.length + padTo 4 (8 + r.data.length) ∧
    e1.length % 8 = 0 ∧ e2.length % 4 = 0 := by
  have hwf : r.data.length < 2 ^ 32 := by
    by_contra hc
    rw [entryV1_none fbits r hc] at h1
    exact Option.noConfusion h1
  have he1 : e1 = entryBytesV1 fbits r :=
    Option.some.inj (by rw [← h1, entryV1_eq fbits r hwf])
  have he2 : e2 = entryBytesV2 r :=
    Option.some.inj (by rw [← h2, entryV2_eq r])
  subst he1
  subst he2
  refine ⟨rfl, rfl, fun hz => by simp [padTo, hz], fun hz => by simp [padTo, hz],
    entryBytesV1_length fbits r, entryBytesV2_length r, ?_, ?_⟩
  · rw [entryBytesV1_length]
    exact padded_mod 8 (32 + r.data.length) (by norm_num)
  · rw [entryBytesV2_length]
    exact padded_mod 4 (8 + r.data.length) (by norm_num)

/-- C4 witness: padding behaviour at a concrete record and size. -/
theorem segb_C4_witness :
    padTo 8 16 = (8 - 16 % 8) % 8 ∧
    padTo 4 16 = (4 - 16 % 4) % 4 ∧
    (16 % 8 = 0 → padTo 8 16 = 0) ∧
    (16 % 4 = 0 → padTo 4 16 = 0) ∧
    ((entryV1 fb0 ⟨[1, 2, 3], 0⟩).getD []).length
      = 32 + ([1, 2, 3] : List Nat).length
        + padTo 8 (32 + ([1, 2, 3] : List Nat).length) ∧
    ((entryV2 ⟨[1, 2, 3], 0⟩).getD []).length
      = 8 + ([1, 2, 3] : List Nat).length
        + padTo 4 (8 + ([1, 2, 3] : List Nat).length) ∧
    ((entryV1 fb0 ⟨[1, 2, 3], 0⟩).getD []).length % 8 = 0 ∧
    ((entryV2 ⟨[1, 2, 3], 0⟩).getD []).length % 4 = 0 :=
  segb_C4_padding fb0 ⟨[1, 2, 3], 0⟩ ((entryV1 fb0 ⟨[1, 2, 3], 0⟩).getD [])
    ((entryV2 ⟨[1, 2, 3], 0⟩).getD []) 16 (by decide) (by decide)

/-- C5: each v1 entry begins with a 32-byte header holding, in order and
little-endian: the data length as u32, the state 1 (Written) as i32, the
two equal f64 timestamps, the CRC32 checksum as u32, and 4 reserved zero
bytes; the timestamp value is exactly the signed fractional number of
seconds from 2001-01-01T00:00:00 UTC to the record's instant
(`get_timestamp` multiplied back by 10^6 returns the exact microsecond
offset), encoded through the IEEE-754 bit function `fbits`. -/
theorem segb_C5_v1_entry (fbits : ℚ → Nat) (rs : List Record) (out : List Nat)
    (i : Nat) (hi : i < rs.length) (h : encodeV1 fbits rs = some out) :
    slice out (offsetV1 rs i + 0x00) 4 = toLE 4 (rs.get ⟨i, hi⟩).data.length ∧
    slice out (offsetV1 rs i + 0x04) 4 = toLE 4 1 ∧
    slice out (offsetV1 rs i + 0x08) 8
      = packF64 fbits (get_timestamp (rs.get ⟨i, hi⟩).dateMicros) ∧
    slice out (offsetV1 rs i + 0x10) 8
      = packF64 fbits (get_timestamp (rs.get ⟨i, hi⟩).dateMicros) ∧
    slice out (offsetV1 rs i + 0x18) 4 = toLE 4 (crc32 (rs.get ⟨i, hi⟩).data) ∧
    slice out (offsetV1 rs i + 0x1C) 4 = List.replicate 4 0 ∧
    get_timestamp (rs.get ⟨i, hi⟩).dateMicros * 1000000
      = ((rs.get ⟨i, hi⟩).dateMicros : ℚ) := by
  obtain ⟨hwf, ht, hout⟩ := encodeV1_some_eq fbits rs out h
  have key : ∀ d n : Nat, d + n ≤ 32 →
      slice out (offsetV1 rs i + d) n
        = slice (entryBytesV1 fbits (rs.get ⟨i, hi⟩)) d n := by
    intro d n hdn
    rw [hout]
    have hsf := slice_flatten_v1 fbits rs i hi
      (toLE 4 (0x38 + (entrySizesV1 rs).sum) ++ List.replicate 48 0 ++ magic) d n
      (by rw [entryBytesV1_length]; omega)
    rw [show offsetV1 rs i + d
        = (toLE 4 (0x38 + (entrySizesV1 rs).sum) ++ List.replicate 48 0
          ++ magic).length + ((entrySizesV1 rs).take i).sum + d from by
      simp [offsetV1, toLE_length, magic]]
    exact hsf
  refine ⟨?_, ?_, ?_, ?_, ?_, ?_, ?_⟩
  · rw [key 0x00 4 (by omega)]
    exact entryBytesV1_field_len fbits _
  · rw [key 0x04 4 (by omega)]
    exact entryBytesV1_field_state fbits _
  · rw [key 0x08 8 (by omega)]
    exact entryBytesV1_field_ts1 fbits _
  · rw [key 0x10 8 (by omega)]
    exact entryBytesV1_field_ts2 fbits _
  · rw [key 0x18 4 (by omega)]
    exact entryBytesV1_field_crc fbits _
  · rw [key 0x1C 4 (by omega)]
    exact entryBytesV1_field_res fbits _
  · unfold get_timestamp
    exact div_mul_cancel₀ _ (by norm_num)

/-- C5 witness: the v1 entry header fields at a concrete input. -/
theorem segb_C5_witness :
    slice ((encodeV1 fb0 rs0).getD []) (offsetV1 rs0 0 + 0x00) 4
      = toLE 4 (rs0.get ⟨0, by decide⟩).data.length ∧
    slice ((encodeV1 fb0 rs0).getD []) (offsetV1 rs0 0 + 0x04) 4 = toLE 4 1 ∧
    slice ((encodeV1 fb0 rs0).getD []) (offsetV1 rs0 0 + 0x08) 8
      = packF64 fb0 (get_timestamp (rs0.get ⟨0, by decide⟩).dateMicros) ∧
    slice ((encodeV1 fb0 rs0).getD []) (offsetV1 rs0 0 + 0x10) 8
      = packF64 fb0 (get_timestamp (rs0.get ⟨0, by decide⟩).dateMicros) ∧
    slice ((encodeV1 fb0 rs0).getD []) (offsetV1 rs0 0 + 0x18) 4
      = toLE 4 (crc32 (rs0.get ⟨0, by decide⟩).data) ∧
    slice ((encodeV1 fb0 rs0).getD []) (offsetV1 rs0 0 + 0x1C) 4
      = List.replicate 4 0 ∧
    get_timestamp (rs0.get ⟨0, by decide⟩).dateMicros * 1000000
      = ((rs0.get ⟨0, by decide⟩).dateMicros : ℚ) :=
  segb_C5_v1_entry fb0 rs0 ((encodeV1 fb0 rs0).getD []) 0 (by decide) (by decide)

/-- C6: a v2 container starts with an exactly 32-byte header: the magic
`SEGB` at offset 0, the number of input records as u32 little-endian at
offset 4, the creation timestamp (the clock instant, in exact seconds
from the 2001-01-01 epoch, through the IEEE-754 bit function) as f64
little-endian at offset 8, then 16 reserved zero bytes. -/
theorem segb_C6_v2_header (fbits : ℚ → Nat) (now : Int) (rs : List Record)
    (out : List Nat) (h : encodeV2 fbits now rs = some out) :
    out.take 0x20 = magic ++ toLE 4 rs.length
      ++ packF64 fbits (get_timestamp now) ++ List.replicate 16 0 ∧
    slice out 0 4 = magic ∧
    fromLE (slice out 4 4) = rs.length ∧
    slice out 0x08 8 = packF64 fbits (get_timestamp now) ∧
    slice out 0x10 16 = List.replicate 16 0 ∧
    get_timestamp now * 1000000 = (now : ℚ) := by
  obtain ⟨hn, hoff2, hout⟩ := encodeV2_some_eq fbits now rs out h
  have htake : out.take 0x20 = magic ++ toLE 4 rs.length
      ++ packF64 fbits (get_timestamp now) ++ List.replicate 16 0 := by
    rw [hout]
    rw [show magic ++ toLE 4 rs.length ++ packF64 fbits (get_timestamp now)
          ++ List.replicate 16 0 ++ (rs.map entryBytesV2).flatten
          ++ (trailerBytesV2 fbits rs 0 rs).flatten
        = (magic ++ toLE 4 rs.length ++ packF64 fbits (get_timestamp now)
          ++ List.replicate 16 0) ++ ((rs.map entryBytesV2).flatten
          ++ (trailerBytesV2 fbits rs 0 rs).flatten) from by
      simp [List.append_assoc]]
    exact List.take_left' (by simp [magic, toLE_length, packF64_length])
  refine ⟨htake, ?_, ?_, ?_, ?_, ?_⟩
  · rw [← slice_take out 0x20 0 4 (by omega), htake]
    rfl
  · rw [← slice_take out 0x20 4 4 (by omega), htake]
    rw [show slice (magic ++ toLE 4 rs.length ++ packF64 fbits (get_timestamp now)
        ++ List.replicate 16 0) 4 4 = toLE 4 rs.length from rfl]
    refine fromLE_toLE 4 _ ?_
    rw [show (256 : Nat) ^ 4 = 2 ^ 32 from by norm_num]
    exact hn
  · rw [← slice_take out 0x20 0x08 8 (by omega), htake]
    rfl
  · rw [← slice_take out 0x20 0x10 16 (by omega), htake]
    rfl
  · unfold get_timestamp
    exact div_mul_cancel₀ _ (by norm_num)

/-- C6 witness: the v2 header at a concrete input. -/
theorem segb_C6_witness :
    ((encodeV2 fb0 7 rs0).getD []).take 0x20 = magic ++ toLE 4 rs0.length
      ++ packF64 fb0 (get_timestamp 7) ++ List.replicate 16 0 ∧
    slice ((encodeV2 fb0 7 rs0).getD []) 0 4 = magic ∧
    fromLE (slice ((encodeV2 fb0 7 rs0).getD []) 4 4) = rs0.length ∧
    slice ((encodeV2 fb0 7 rs0).getD []) 0x08 8 = packF64 fb0 (get_timestamp 7) ∧
    slice ((encodeV2 fb0 7 rs0).getD []) 0x10 16 = List.replicate 16 0 ∧
    get_timestamp 7 * 1000000 = ((7 : Int) : ℚ) :=
  segb_C6_v2_header fb0 7 rs0 ((encodeV2 fb0 7 rs0).getD []) (by decide)

/-- C7: a v2 container ends with a trailer of exactly 16 bytes per entry,
one record per entry in data-region order, each packed little-endian as
offset (u32), state 1 (i32), timestamp (f64); the total container length
is header + data region + 16 × entry count, so the trailer is exactly the
final `entry_count * 16` bytes. -/
theorem segb_C7_v2_trailer (fbits : ℚ → Nat) (now : Int) (rs : List Record)
    (out : List Nat) (i : Nat) (hi : i < rs.length)
    (h : encodeV2 fbits now rs = some out) :
    out.length = 0x20 + (entrySizesV2 rs).sum + 16 * rs.length ∧
    slice out (0x20 + (entrySizesV2 rs).sum + 16 * i) 16
      = toLE 4 (offsetV2 rs i) ++ toLE 4 1
        ++ packF64 fbits (get_timestamp (rs.get ⟨i, hi⟩).dateMicros) := by
  obtain ⟨hn, hoff2, hout⟩ := encodeV2_some_eq fbits now rs out h
  have hET : ((rs.map entryBytesV2).flatten).length = (entrySizesV2 rs).sum := by
    rw [List.length_flatten, map_length_entryBytesV2]
  have hTT := trailerBytesV2_flatten_length fbits rs rs 0
  constructor
  · rw [hout]
    simp [toLE_length, packF64_length, magic, hET, hTT]
    omega
  · rw [hout]
    have hsf := slice_flatten_tr fbits rs rs 0 i hi
      (magic ++ toLE 4 rs.length ++ packF64 fbits (get_timestamp now)
        ++ List.replicate 16 0 ++ (rs.map entryBytesV2).flatten) 0 16 (by omega)
    simp only [Nat.zero_add, Nat.add_zero] at hsf
    rw [show 0x20 + (entrySizesV2 rs).sum + 16 * i
        = (magic ++ toLE 4 rs.length ++ packF64 fbits (get_timestamp now)
          ++ List.replicate 16 0 ++ (rs.map entryBytesV2).flatten).length
          + 16 * i from by
      simp [magic, toLE_length, packF64_length, hET]
      omega]
    rw [hsf]
    exact trailerRecBytesV2_whole fbits rs i (rs.get ⟨i, hi⟩)

/-- C7 witness: the trailer record of entry 2 at a concrete input. -/
theorem segb_C7_witness :
    ((encodeV2 fb0 7 rs0).getD []).length
      = 0x20 + (entrySizesV2 rs0).sum + 16 * rs0.length ∧
    slice ((encodeV2 fb0 7 rs0).getD [])
        (0x20 + (entrySizesV2 rs0).sum + 16 * 2) 16
      = toLE 4 (offsetV2 rs0 2) ++ toLE 4 1
        ++ packF64 fb0 (get_timestamp (rs0.get ⟨2, by decide⟩).dateMicros) :=
  segb_C7_v2_trailer fb0 7 rs0 ((encodeV2 fb0 7 rs0).getD []) 2 (by decide) (by decide)

/-- C8: each v2 trailer record's offset field holds the sum of the padded
sizes of all preceding entries — an offset relative to the first byte
after the 32-byte header — the first entry's offset is 0, and the entry
located at that relative offset in the data region is the record's own
entry (it starts with that record's checksum field). -/
theorem segb_C8_v2_offsets (fbits : ℚ → Nat) (now : Int) (rs : List Record)
    (out : List Nat) (i : Nat) (hi : i < rs.length)
    (h : encodeV2 fbits now rs = some out) :
    slice out (0x20 + (entrySizesV2 rs).sum + 16 * i) 4 = toLE 4 (offsetV2 rs i) ∧
    offsetV2 rs i = ((entrySizesV2 rs).take i).sum ∧
    offsetV2 rs 0 = 0 ∧
    slice out (0x20 + offsetV2 rs i) 4 = toLE 4 (crc32 (rs.get ⟨i, hi⟩).data) := by
  obtain ⟨hn, hoff2, hout⟩ := encodeV2_some_eq fbits now rs out h
  have hET : ((rs.map entryBytesV2).flatten).length = (entrySizesV2 rs).sum := by
    rw [List.length_flatten, map_length_entryBytesV2]
  refine ⟨?_, rfl, rfl, ?_⟩
  · rw [hout]
    have hsf := slice_flatten_tr fbits rs rs 0 i hi
      (magic ++ toLE 4 rs.length ++ packF64 fbits (get_timestamp now)
        ++ List.replicate 16 0 ++ (rs.map entryBytesV2).flatten) 0 4 (by omega)
    simp only [Nat.zero_add, Nat.add_zero] at hsf
    rw [show 0x20 + (entrySizesV2 rs).sum + 16 * i
        = (magic ++ toLE 4 rs.length ++ packF64 fbits (get_timestamp now)
          ++ List.replicate 16 0 ++ (rs.map entryBytesV2).flatten).length
          + 16 * i from by
      simp [magic, toLE_length, packF64_length, hET]
      omega]
    rw [hsf]
    exact trailerRecBytesV2_field_off fbits rs i (rs.get ⟨i, hi⟩)
  · rw [hout]
    have hle : offsetV2 rs i + 8 ≤ (entrySizesV2 rs).sum := by
      have ha := offsetV2_take_succ rs i hi
      have hb := offsetV2_le_sum rs (i + 1)
      omega
    rw [slice_append_left _ _ _ _ (by
      simp only [List.length_append, List.length_replicate, toLE_length,
        packF64_length, List.length_flatten, map_length_entryBytesV2,
        show magic.length = 4 from rfl]
      omega)]
    have hsf := slice_flatten_v2 rs i hi
      (magic ++ toLE 4 rs.length ++ packF64 fbits (get_timestamp now)
        ++ List.replicate 16 0) 0 4
      (by rw [entryBytesV2_length]; omega)
    rw [show 0x20 + offsetV2 rs i
        = (magic ++ toLE 4 rs.length ++ packF64 fbits (get_timestamp now)
          ++ List.replicate 16 0).length + ((entrySizesV2 rs).take i).sum + 0 from by
      simp [offsetV2, magic, toLE_length, packF64_length]]
    rw [hsf]
    exact entryBytesV2_field_crc (rs.get ⟨i, hi⟩)

/-- C8 witness: the trailer offsets at a concrete input. -/
theorem segb_C8_witness :
    slice ((encodeV2 fb0 7 rs0).getD [])
        (0x20 + (entrySizesV2 rs0).sum + 16 * 1) 4 = toLE 4 (offsetV2 rs0 1) ∧
    offsetV2 rs0 1 = ((entrySizesV2 rs0).take 1).sum ∧
    offsetV2 rs0 0 = 0 ∧
    slice ((encodeV2 fb0 7 rs0).getD []) (0x20 + offsetV2 rs0 1) 4
      = toLE 4 (crc32 (rs0.get ⟨1, by decide⟩).data) :=
  segb_C8_v2_offsets fb0 7 rs0 ((encodeV2 fb0 7 rs0).getD []) 1 (by decide) (by decide)

/-- C9: the generator is deterministic up to the clock: two runs over the
same records at different clock instants produce identical v1 containers,
and v2 containers of the same length agreeing on every byte outside the
creation-timestamp field, header bytes [0x08:0x10). -/
theorem segb_C9_clock (fbits : ℚ → Nat) (rs : List Record) (nowA nowB : Int)
    (oA oB : List Nat × List Nat)
    (hA : generateFiles fbits nowA rs = some oA)
    (hB : generateFiles fbits nowB rs = some oB) :
    oA.1 = oB.1 ∧ oA.2.length = oB.2.length ∧
    oA.2.take 0x08 = oB.2.take 0x08 ∧ oA.2.drop 0x10 = oB.2.drop 0x10 := by
  unfold generateFiles at hA hB
  cases h1 : encodeV1 fbits rs with
  | none =>
    rw [h1] at hA
    simp at hA
  | some f1 =>
    rw [h1] at hA hB
    simp only [Option.some_bind] at hA hB
    cases h2A : encodeV2 fbits nowA rs with
    | none =>
      rw [h2A] at hA
      simp at hA
    | some f2A =>
      rw [h2A] at hA
      simp only [Option.some_bind, Option.some.injEq] at hA
      cases h2B : encodeV2 fbits nowB rs with
      | none =>
        rw [h2B] at hB
        simp at hB
      | some f2B =>
        rw [h2B] at hB
        simp only [Option.some_bind, Option.some.injEq] at hB
        obtain ⟨hnA, hoffA, houtA⟩ := encodeV2_some_eq fbits nowA rs f2A h2A
        obtain ⟨hnB, hoffB, houtB⟩ := encodeV2_some_eq fbits nowB rs f2B h2B
        rw [← hA, ← hB]
        refine ⟨rfl, ?_, ?_, ?_⟩
        · show f2A.length = f2B.length
          rw [houtA, houtB]
          simp [magic, toLE_length, packF64_length]
        · show f2A.take 0x08 = f2B.take 0x08
          rw [houtA, houtB]
          rw [show magic ++ toLE 4 rs.length ++ packF64 fbits (get_timestamp nowA)
                ++ List.replicate 16 0 ++ (rs.map entryBytesV2).flatten
                ++ (trailerBytesV2 fbits rs 0 rs).flatten
              = (magic ++ toLE 4 rs.length) ++ (packF64 fbits (get_timestamp nowA)
                ++ List.replicate 16 0 ++ (rs.map entryBytesV2).flatten
                ++ (trailerBytesV2 fbits rs 0 rs).flatten) from by
            simp [List.append_assoc]]
          rw [show magic ++ toLE 4 rs.length ++ packF64 fbits (get_timestamp nowB)
                ++ List.replicate 16 0 ++ (rs.map entryBytesV2).flatten
                ++ (trailerBytesV2 fbits rs 0 rs).flatten
              = (magic ++ toLE 4 rs.length) ++ (packF64 fbits (get_timestamp nowB)
                ++ List.replicate 16 0 ++ (rs.map entryBytesV2).flatten
                ++ (trailerBytesV2 fbits rs 0 rs).flatten) from by
            simp [List.append_assoc]]
          rw [List.take_left' (by simp [magic, toLE_length]),
            List.take_left' (by simp [magic, toLE_length])]
        · show f2A.drop 0x10 = f2B.drop 0x10
          rw [houtA, houtB]
          rw [show magic ++ toLE 4 rs.length ++ packF64 fbits (get_timestamp nowA)
                ++ List.replicate 16 0 ++ (rs.map entryBytesV2).flatten
                ++ (trailerBytesV2 fbits rs 0 rs).flatten
              = (magic ++ toLE 4 rs.length ++ packF64 fbits (get_timestamp nowA))
                ++ (List.replicate 16 0 ++ (rs.map entryBytesV2).flatten
                ++ (trailerBytesV2 fbits rs 0 rs).flatten) from by
            simp [List.append_assoc]]
          rw [show magic ++ toLE 4 rs.length ++ packF64 fbits (get_timestamp nowB)
                ++ List.replicate 16 0 ++ (rs.map entryBytesV2).flatten
                ++ (trailerBytesV2 fbits rs 0 rs).flatten
              = (magic ++ toLE 4 rs.length ++ packF64 fbits (get_timestamp nowB))
                ++ (List.replicate 16 0 ++ (rs.map entryBytesV2).flatten
                ++ (trailerBytesV2 fbits rs 0 rs).flatten) from by
            simp [List.append_assoc]]
          rw [List.drop_left' (by simp [magic, toLE_length, packF64_length]),
            List.drop_left' (by simp [magic, toLE_length, packF64_length])]

/-- C9 witness: two runs at clock instants 1 and 2 over a concrete input. -/
theorem segb_C9_witness :
    ((generateFiles fb0 1 rs0).getD ([], [])).1
      = ((generateFiles fb0 2 rs0).getD ([], [])).1 ∧
    ((generateFiles fb0 1 rs0).getD ([], [])).2.length
      = ((generateFiles fb0 2 rs0).getD ([], [])).2.length ∧
    ((generateFiles fb0 1 rs0).getD ([], [])).2.take 0x08
      = ((generateFiles fb0 2 rs0).getD ([], [])).2.take 0x08 ∧
    ((generateFiles fb0 1 rs0).getD ([], [])).2.drop 0x10
      = ((generateFiles fb0 2 rs0).getD ([], [])).2.drop 0x10 :=
  segb_C9_clock fb0 rs0 1 2 ((generateFiles fb0 1 rs0).getD ([], []))
    ((generateFiles fb0 2 rs0).getD ([], [])) (by decide) (by decide)

/-- C10: in a v2 container the trailer offsets are strictly increasing and
consecutive offsets differ by at least 8 bytes (the fixed checksum plus
reserved prefix of every entry, even for empty data); the gap from the
last entry's offset to the trailer start (the data-region length) is also
at least 8 bytes, so gap-based length inference is well defined. -/
theorem segb_C10_offsets_monotone (rs : List Record) (i : Nat) :
    (i + 1 < rs.length →
      offsetV2 rs i + 8 ≤ offsetV2 rs (i + 1) ∧
      offsetV2 rs i < offsetV2 rs (i + 1)) ∧
    (i < rs.length → offsetV2 rs i + 8 ≤ (entrySizesV2 rs).sum) := by
  constructor
  · intro hi1
    have ha := offsetV2_take_succ rs i (by omega)
    omega
  · intro hi
    have ha := offsetV2_take_succ rs i hi
    have hb := offsetV2_le_sum rs (i + 1)
    omega

/-- C10 witness: offset monotonicity at a concrete input. -/
theorem segb_C10_witness :
    (offsetV2 rs0 0 + 8 ≤ offsetV2 rs0 (0 + 1) ∧
      offsetV2 rs0 0 < offsetV2 rs0 (0 + 1)) ∧
    offsetV2 rs0 2 + 8 ≤ (entrySizesV2 rs0).sum :=
  ⟨(segb_C10_offsets_monotone rs0 0).1 (by decide),
   (segb_C10_offsets_monotone rs0 2).2 (by decide)⟩

end SEGB
